import Mathlib

/-!
atom.hh : short string literals packed into 64-bit integers.

A shallow embedding of `atom::detail::set_byte`, `atom::detail::atom_helper<N, C>::get_value`
and `atom::literal` from `src/atom.hh`, followed by theorems about them.

Modelling conventions.

* `atom_uint64_t` is `unsigned long long`; values are natural numbers below `2 ^ 64` and every
  operation that can leave that range is reduced `% 2 ^ 64` explicitly.
* A `char` object is one byte, represented by its object representation in `Fin 256`.
  Whether plain `char` is signed is implementation-defined in C++, so the conversion of
  `str[C]` to `atom_uint64_t` takes the platform's choice as the parameter `signedChar`.
* `const char (&str)[N]` is a list of bytes whose length is the template argument `N`.
  C++ has no arrays of length zero, which is the hypothesis `0 < str.length` of `literal`.
* A failing `static_assert` means that the call does not compile: `literal` returns `none`.
-/

set_option maxRecDepth 8192

namespace atom

/-- The modulus of `atom_uint64_t` arithmetic (`sizeof(atom_uint64_t) == 8`). -/
def atom_uint64_mod : Nat := 2 ^ 64

/-- The implicit conversion of the `char` argument `str[C]` to the `atom_uint64_t` parameter
`value` of `set_byte`.  An unsigned `char` is zero-extended.  A signed `char` whose byte is
`128` or more holds the negative value `c - 256`, which converts to `2 ^ 64 - 256 + c`. -/
def char_to_uint64 (signedChar : Bool) (c : Fin 256) : Nat :=
  if signedChar && decide (128 ≤ c.val) then atom_uint64_mod - 256 + c.val else c.val

namespace detail

/-- `set_byte(byte, value)` is `value << byte * 8` on `atom_uint64_t`; the multiplication binds
tighter than the shift, and bits shifted past bit 63 are lost. -/
def set_byte (byte value : Nat) : Nat :=
  (value <<< (byte * 8)) % atom_uint64_mod

/-- `atom_helper<N, C>::get_value(str)` with `N = str.length`.  The primary template
(`C + 1`) ORs `set_byte(C, str[C])` with `atom_helper<N, C - 1>::get_value(str)`; the partial
specialisation `atom_helper<N, 0>` returns `set_byte(0, str[0])`. -/
def atom_helper.get_value (signedChar : Bool) (str : List (Fin 256)) :
    (C : Nat) → C < str.length → Nat
  | 0, h => set_byte 0 (char_to_uint64 signedChar (str.get ⟨0, h⟩))
  | C + 1, h =>
      set_byte (C + 1) (char_to_uint64 signedChar (str.get ⟨C + 1, h⟩)) |||
        atom_helper.get_value signedChar str C (Nat.lt_of_succ_lt h)

end detail

/-- `literal(str)`: `static_assert(N <= sizeof(atom_uint64_t))`, then
`detail::atom_helper<N, N - 1>::get_value(str)`. -/
def literal (signedChar : Bool) (str : List (Fin 256)) (hN : 0 < str.length) : Option Nat :=
  if str.length ≤ 8 then
    some (detail.atom_helper.get_value signedChar str (str.length - 1)
      (Nat.sub_lt hN Nat.one_pos))
  else none

/-- Byte `i` of a 64-bit value: `(v >> 8 * i) & 0xFF`. -/
def byteAt (v i : Nat) : Nat := (v >>> (8 * i)) &&& 0xFF

/-- The bytes of `str` as natural numbers. -/
def byteVals (str : List (Fin 256)) : List Nat := str.map Fin.val

/-- The documented domain of the library, or a platform on which it does not matter: every
`char` of `str` is ASCII (`0 .. 127`), or plain `char` is unsigned. -/
def plainChars (signedChar : Bool) (str : List (Fin 256)) : Prop :=
  signedChar = false ∨ ∀ c ∈ str, c.val < 128

/-- The literal padded with null bytes on the high end up to the 8 bytes of an atom. -/
def pad8 (str : List (Fin 256)) : List (Fin 256) :=
  str ++ List.replicate (8 - str.length) 0

/-- The C string held by a `char` array: the bytes before its first null byte. -/
def cstr (str : List (Fin 256)) : List (Fin 256) :=
  str.takeWhile (fun c => decide (c ≠ 0))

/-- Every byte from the first null byte on is null, as in a string literal that has no
embedded null character. -/
def nullTail (str : List (Fin 256)) : Prop :=
  ∀ c ∈ str.dropWhile (fun c => decide (c ≠ 0)), c = 0

/-- The packing loop in the words of the specification (section 4.1, Algorithm): starting from
an accumulator of zero, for each byte index `i` from `0` to `N - 1`, shift the byte value left
by `i * 8` bits and OR it into the accumulator.  Byte values are the raw bytes `0 .. 255`. -/
def spec_pack (str : List (Fin 256)) : Nat :=
  str.enum.foldl (fun acc ib => acc ||| (ib.2.val <<< (ib.1 * 8))) 0

/-- The same ascending loop over the operands that the source combines: `set_byte(i, str[i])`
with the `char` converted as on the platform. -/
def ascending_pack (signedChar : Bool) (str : List (Fin 256)) : Nat :=
  str.enum.foldl (fun acc ib => acc ||| detail.set_byte ib.1 (char_to_uint64 signedChar ib.2)) 0

/-- The shift amount of `set_byte(byte, value)`: the subexpression `byte * 8` of
`value << byte * 8`.  The shift is defined in C++ only for amounts below 64, the width of
`atom_uint64_t`. -/
def detail.set_byte_shift (byte : Nat) : Nat := byte * 8

/-- The recursion `atom_helper<N, C>::get_value(str)` with a record of what it does.  The
first component is the value returned.  The second has one entry for each call of a
`get_value`, outermost call first: the index `C` at which that call reads `str[C]`, and the
shift amount of its call `set_byte(C, str[C])`. -/
def detail.atom_helper.get_value_traced (signedChar : Bool) (str : List (Fin 256)) :
    (C : Nat) → C < str.length → Nat × List (Nat × Nat)
  | 0, h =>
      (detail.set_byte 0 (char_to_uint64 signedChar (str.get ⟨0, h⟩)),
        [(0, detail.set_byte_shift 0)])
  | C + 1, h =>
      (detail.set_byte (C + 1) (char_to_uint64 signedChar (str.get ⟨C + 1, h⟩)) |||
          (detail.atom_helper.get_value_traced signedChar str C (Nat.lt_of_succ_lt h)).1,
        (C + 1, detail.set_byte_shift (C + 1)) ::
          (detail.atom_helper.get_value_traced signedChar str C (Nat.lt_of_succ_lt h)).2)

/-- The arithmetic sum over the indices `i < N` of `str[i] * 256 ^ i`. -/
def positional_sum (str : List (Fin 256)) : Nat :=
  (str.enum.map (fun ib => ib.2.val * 256 ^ ib.1)).sum

instance (signedChar : Bool) (str : List (Fin 256)) : Decidable (plainChars signedChar str) :=
  inferInstanceAs (Decidable (signedChar = false ∨ ∀ c ∈ str, c.val < 128))

instance (str : List (Fin 256)) : Decidable (nullTail str) :=
  inferInstanceAs (Decidable (∀ c ∈ str.dropWhile (fun c => decide (c ≠ 0)), c = 0))

/-! Packing on the documented domain: the atom is the base-256 number of the bytes. -/

theorem char_to_uint64_of_plain {signedChar : Bool} {str : List (Fin 256)}
    (hp : plainChars signedChar str) {c : Fin 256} (hc : c ∈ str) :
    char_to_uint64 signedChar c = c.val := by
  unfold char_to_uint64
  rcases hp with h | h
  · simp [h]
  · have := h c hc
    have h2 : ¬ (128 ≤ c.val) := by omega
    simp [h2]

theorem pow256 (n : Nat) : 256 ^ n = 2 ^ (n * 8) := by
  rw [Nat.mul_comm, Nat.pow_mul]

theorem set_byte_of_lt {byte value : Nat} (hb : byte ≤ 7) (hv : value < 256) :
    detail.set_byte byte value = 2 ^ (byte * 8) * value := by
  unfold detail.set_byte atom_uint64_mod
  rw [Nat.shiftLeft_eq, Nat.mul_comm]
  apply Nat.mod_eq_of_lt
  have h1 : 2 ^ (byte * 8) ≤ 2 ^ 56 := Nat.pow_le_pow_right (by decide) (by omega)
  calc 2 ^ (byte * 8) * value ≤ 2 ^ 56 * value := Nat.mul_le_mul_right _ h1
    _ < 2 ^ 56 * 256 := by omega
    _ = 2 ^ 64 := by norm_num

theorem byteVals_lt (str : List (Fin 256)) : ∀ x ∈ byteVals str, x < 256 := by
  intro x hx
  unfold byteVals at hx
  obtain ⟨c, -, rfl⟩ := List.mem_map.1 hx
  exact c.isLt

theorem get_value_of_plain {signedChar : Bool} {str : List (Fin 256)}
    (hp : plainChars signedChar str) :
    ∀ (C : Nat) (h : C < str.length), C ≤ 7 →
      detail.atom_helper.get_value signedChar str C h
        = Nat.ofDigits 256 (byteVals (str.take (C + 1))) := by
  intro C
  induction C with
  | zero =>
    intro h _
    have hc : char_to_uint64 signedChar (str.get ⟨0, h⟩) = (str.get ⟨0, h⟩).val :=
      char_to_uint64_of_plain hp (List.get_mem _ _ _)
    rw [detail.atom_helper.get_value, hc, set_byte_of_lt (Nat.zero_le _) (Fin.isLt _)]
    cases str with
    | nil => simp at h
    | cons a tl => simp [byteVals]
  | succ C ih =>
    intro h h7
    have hc : char_to_uint64 signedChar (str.get ⟨C + 1, h⟩) = (str.get ⟨C + 1, h⟩).val :=
      char_to_uint64_of_plain hp (List.get_mem _ _ _)
    rw [detail.atom_helper.get_value, hc, set_byte_of_lt h7 (Fin.isLt _),
      ih (Nat.lt_of_succ_lt h) (by omega)]
    have hlt : Nat.ofDigits 256 (byteVals (str.take (C + 1))) < 2 ^ ((C + 1) * 8) := by
      have := Nat.ofDigits_lt_base_pow_length (b := 256) (by decide)
        (byteVals_lt (str.take (C + 1)))
      rw [pow256] at this
      simpa [byteVals, Nat.min_eq_left (Nat.le_of_lt h)] using this
    rw [← Nat.mul_add_lt_is_or hlt]
    have htake : str.take (C + 1 + 1) = str.take (C + 1) ++ [str.get ⟨C + 1, h⟩] := by
      rw [List.take_succ, List.getElem?_eq_getElem h]
      rfl
    rw [htake]
    unfold byteVals
    rw [List.map_append, Nat.ofDigits_append]
    simp [pow256, Nat.min_eq_left (Nat.le_of_lt h)]
    omega

theorem literal_of_plain {signedChar : Bool} {str : List (Fin 256)}
    (hp : plainChars signedChar str) (hN : 0 < str.length) (h8 : str.length ≤ 8) :
    literal signedChar str hN = some (Nat.ofDigits 256 (byteVals str)) := by
  unfold literal
  rw [if_pos h8, get_value_of_plain hp _ _ (by omega)]
  have : str.length - 1 + 1 = str.length := by omega
  rw [this, List.take_length]

theorem byteAt_eq (v i : Nat) : byteAt v i = v / 256 ^ i % 256 := by
  unfold byteAt
  rw [Nat.shiftRight_eq_div_pow, show (0xFF : Nat) = 2 ^ 8 - 1 from rfl,
    Nat.and_pow_two_sub_one_eq_mod, pow256, Nat.mul_comm]

theorem ofDigits_div_pow_mod (l : List Nat) (hl : ∀ x ∈ l, x < 256) :
    ∀ (i : Nat) (hi : i < l.length), Nat.ofDigits 256 l / 256 ^ i % 256 = l.get ⟨i, hi⟩ := by
  induction l with
  | nil => intro i hi; simp at hi
  | cons a tl ih =>
    intro i hi
    have ha : a < 256 := hl a (List.mem_cons_self _ _)
    rw [Nat.ofDigits_cons]
    cases i with
    | zero => simp; omega
    | succ i =>
      have hi2 : i < tl.length := by simpa using hi
      have := ih (fun x hx => hl x (List.mem_cons_of_mem _ hx)) i hi2
      rw [Nat.pow_succ, Nat.mul_comm (256 ^ i) 256, ← Nat.div_div_eq_div_mul]
      have hdiv : (a + 256 * Nat.ofDigits 256 tl) / 256 = Nat.ofDigits 256 tl := by omega
      rw [hdiv, this]
      rfl

theorem byteAt_zero_of_lt {v N p : Nat} (hv : v < 256 ^ N) (hp : N ≤ p) : byteAt v p = 0 := by
  rw [byteAt_eq, Nat.div_eq_of_lt (Nat.lt_of_lt_of_le hv (Nat.pow_le_pow_right (by decide) hp))]

/-! The zero atom, for either signedness of `char`. -/

theorem or_eq_zero_iff (a b : Nat) : a ||| b = 0 ↔ a = 0 ∧ b = 0 := by
  constructor
  · intro h
    have key : ∀ i, (a.testBit i || b.testBit i) = false := by
      intro i
      rw [← Nat.testBit_or, h, Nat.zero_testBit]
    constructor
    · apply Nat.eq_of_testBit_eq
      intro i
      have := key i
      rw [Nat.zero_testBit]
      cases hb : a.testBit i <;> simp_all
    · apply Nat.eq_of_testBit_eq
      intro i
      have := key i
      rw [Nat.zero_testBit]
      cases hb : b.testBit i <;> simp_all
  · rintro ⟨rfl, rfl⟩
    rfl

theorem set_byte_char_eq_zero_iff (signedChar : Bool) (c : Fin 256) {byte : Nat}
    (hb : byte ≤ 7) : detail.set_byte byte (char_to_uint64 signedChar c) = 0 ↔ c = 0 := by
  have hc := c.isLt
  have hz : c = 0 ↔ c.val = 0 := by
    rw [Fin.ext_iff]
    rfl
  rw [hz]
  unfold detail.set_byte char_to_uint64 atom_uint64_mod
  rw [Nat.shiftLeft_eq]
  generalize c.val = n at hc ⊢
  by_cases hs : (signedChar && decide (128 ≤ n)) = true
  · rw [if_pos hs]
    have h128 : 128 ≤ n := by
      simp only [Bool.and_eq_true, decide_eq_true_eq] at hs
      exact hs.2
    interval_cases byte <;> norm_num <;> omega
  · rw [if_neg hs]
    interval_cases byte <;> norm_num <;> omega

theorem get_value_eq_zero_iff (signedChar : Bool) (str : List (Fin 256)) :
    ∀ (C : Nat) (h : C < str.length), C ≤ 7 →
      (detail.atom_helper.get_value signedChar str C h = 0 ↔
        ∀ (i : Nat) (hi : i ≤ C), str.get ⟨i, Nat.lt_of_le_of_lt hi h⟩ = 0) := by
  intro C
  induction C with
  | zero =>
    intro h _
    rw [detail.atom_helper.get_value, set_byte_char_eq_zero_iff _ _ (Nat.le_refl _ |>.trans (by decide))]
    constructor
    · intro h0 i hi
      have : i = 0 := by omega
      subst this
      exact h0
    · intro h0
      exact h0 0 (Nat.le_refl _)
  | succ C ih =>
    intro h h7
    rw [detail.atom_helper.get_value, or_eq_zero_iff, set_byte_char_eq_zero_iff _ _ h7,
      ih (Nat.lt_of_succ_lt h) (by omega)]
    constructor
    · rintro ⟨h1, h2⟩ i hi
      rcases Nat.lt_or_eq_of_le hi with hlt | heq
      · exact h2 i (by omega)
      · subst heq
        exact h1
    · intro h0
      exact ⟨h0 (C + 1) (Nat.le_refl _), fun i hi => h0 i (by omega)⟩

/-! Injectivity of the base-256 value, null padding and C strings. -/

theorem ofDigits_inj_of_length_eq :
    ∀ (l1 l2 : List Nat), (∀ x ∈ l1, x < 256) → (∀ x ∈ l2, x < 256) →
      l1.length = l2.length → Nat.ofDigits 256 l1 = Nat.ofDigits 256 l2 → l1 = l2 := by
  intro l1
  induction l1 with
  | nil =>
    intro l2 _ _ hlen _
    exact (List.length_eq_zero.1 hlen.symm).symm
  | cons a tl ih =>
    intro l2 h1 h2 hlen heq
    cases l2 with
    | nil => simp at hlen
    | cons b tl2 =>
      have ha : a < 256 := h1 a (List.mem_cons_self _ _)
      have hb : b < 256 := h2 b (List.mem_cons_self _ _)
      rw [Nat.ofDigits_cons, Nat.ofDigits_cons] at heq
      have hab : a = b := by omega
      have htl : Nat.ofDigits 256 tl = Nat.ofDigits 256 tl2 := by omega
      rw [hab, ih tl2 (fun x hx => h1 x (List.mem_cons_of_mem _ hx))
        (fun x hx => h2 x (List.mem_cons_of_mem _ hx)) (by simpa using hlen) htl]

theorem byteVals_injective {l1 l2 : List (Fin 256)} (h : byteVals l1 = byteVals l2) :
    l1 = l2 :=
  List.map_injective_iff.2 Fin.val_injective h

theorem ofDigits_replicate_zero (k : Nat) :
    Nat.ofDigits 256 (byteVals (List.replicate k (0 : Fin 256))) = 0 := by
  induction k with
  | zero => rfl
  | succ k ih =>
    rw [List.replicate_succ]
    unfold byteVals at ih ⊢
    rw [List.map_cons, Nat.ofDigits_cons, ih]
    rfl

theorem ofDigits_append_zeros (l : List (Fin 256)) (k : Nat) :
    Nat.ofDigits 256 (byteVals (l ++ List.replicate k 0)) = Nat.ofDigits 256 (byteVals l) := by
  have := ofDigits_replicate_zero k
  unfold byteVals at this ⊢
  rw [List.map_append, Nat.ofDigits_append, this]
  simp

theorem length_pad8 {str : List (Fin 256)} (h8 : str.length ≤ 8) : (pad8 str).length = 8 := by
  unfold pad8
  rw [List.length_append, List.length_replicate]
  omega

theorem pad8_eq_of_ofDigits_eq {l1 l2 : List (Fin 256)} (h1 : l1.length ≤ 8)
    (h2 : l2.length ≤ 8)
    (h : Nat.ofDigits 256 (byteVals l1) = Nat.ofDigits 256 (byteVals l2)) :
    pad8 l1 = pad8 l2 := by
  apply byteVals_injective
  apply ofDigits_inj_of_length_eq _ _ (byteVals_lt _) (byteVals_lt _)
  · unfold byteVals
    rw [List.length_map, List.length_map, length_pad8 h1, length_pad8 h2]
  · unfold pad8
    rw [ofDigits_append_zeros, ofDigits_append_zeros, h]

theorem cstr_append_zeros (l : List (Fin 256)) (k : Nat) :
    cstr (l ++ List.replicate k 0) = cstr l := by
  unfold cstr
  induction l with
  | nil =>
    cases k with
    | zero => rfl
    | succ k => simp [List.replicate_succ]
  | cons a tl ih =>
    rw [List.cons_append, List.takeWhile_cons, List.takeWhile_cons, ih]

/-! Trailing null bytes and the ascending loops, for either signedness of `char`. -/

theorem set_byte_char_zero (signedChar : Bool) (byte : Nat) :
    detail.set_byte byte (char_to_uint64 signedChar 0) = 0 := by
  unfold detail.set_byte char_to_uint64
  simp

theorem get_value_congr (signedChar : Bool) (s1 s2 : List (Fin 256)) :
    ∀ (C : Nat) (h1 : C < s1.length) (h2 : C < s2.length),
      (∀ (i : Nat) (hi : i ≤ C),
        s1.get ⟨i, Nat.lt_of_le_of_lt hi h1⟩ = s2.get ⟨i, Nat.lt_of_le_of_lt hi h2⟩) →
      detail.atom_helper.get_value signedChar s1 C h1
        = detail.atom_helper.get_value signedChar s2 C h2 := by
  intro C
  induction C with
  | zero =>
    intro h1 h2 hag
    rw [detail.atom_helper.get_value, detail.atom_helper.get_value, hag 0 (Nat.le_refl _)]
  | succ C ih =>
    intro h1 h2 hag
    rw [detail.atom_helper.get_value, detail.atom_helper.get_value,
      hag (C + 1) (Nat.le_refl _),
      ih (Nat.lt_of_succ_lt h1) (Nat.lt_of_succ_lt h2) (fun i hi => hag i (by omega))]

theorem get_value_skip_zeros (signedChar : Bool) (s : List (Fin 256)) (C : Nat)
    (hC : C < s.length) :
    ∀ (d : Nat) (hD : C + d < s.length),
      (∀ (i : Nat) (hi : i < s.length), C < i → i ≤ C + d → s.get ⟨i, hi⟩ = 0) →
      detail.atom_helper.get_value signedChar s (C + d) hD
        = detail.atom_helper.get_value signedChar s C hC := by
  intro d
  induction d with
  | zero => intro _ _; rfl
  | succ d ih =>
    intro hD hz
    have h0 : s.get ⟨C + d + 1, hD⟩ = 0 := hz (C + d + 1) hD (by omega) (Nat.le_refl _)
    show detail.atom_helper.get_value signedChar s (C + d + 1) hD = _
    rw [detail.atom_helper.get_value, h0, set_byte_char_zero, Nat.zero_or]
    exact ih (Nat.lt_of_succ_lt hD) (fun i hi h1 h2 => hz i hi h1 (by omega))

theorem literal_append_zeros (signedChar : Bool) (l : List (Fin 256)) (k : Nat)
    (hN : 0 < l.length) (hN2 : 0 < (l ++ List.replicate k (0 : Fin 256)).length)
    (h8 : (l ++ List.replicate k (0 : Fin 256)).length ≤ 8) :
    literal signedChar (l ++ List.replicate k 0) hN2 = literal signedChar l hN := by
  have hlen : (l ++ List.replicate k (0 : Fin 256)).length = l.length + k := by
    rw [List.length_append, List.length_replicate]
  have h8l : l.length ≤ 8 := by omega
  unfold literal
  rw [if_pos h8, if_pos h8l]
  congr 1
  have hC : l.length - 1 < (l ++ List.replicate k (0 : Fin 256)).length := by omega
  have hidx : (l ++ List.replicate k (0 : Fin 256)).length - 1 = l.length - 1 + k := by omega
  have step := get_value_skip_zeros signedChar (l ++ List.replicate k 0) (l.length - 1) hC k
    (by omega) (by
      intro i hi h1 _
      show (l ++ List.replicate k (0 : Fin 256))[i] = 0
      rw [List.getElem_append_right (by omega)]
      exact List.getElem_replicate _ _)
  have hcongr := get_value_congr signedChar (l ++ List.replicate k 0) l (l.length - 1) hC
    (by omega) (by
      intro i hi
      show (l ++ List.replicate k (0 : Fin 256))[i] = l[i]
      exact List.getElem_append_left (by omega))
  rw [← hcongr, ← step]
  congr 1

theorem spec_fold (l : List (Fin 256)) :
    ∀ (k acc : Nat), acc < 256 ^ k →
      (l.enumFrom k).foldl (fun acc ib => acc ||| (ib.2.val <<< (ib.1 * 8))) acc
        = acc + 256 ^ k * Nat.ofDigits 256 (byteVals l) := by
  induction l with
  | nil => intro k acc _; simp [byteVals]
  | cons a tl ih =>
    intro k acc hacc
    have ha := a.isLt
    have hacc2 : acc < 2 ^ (k * 8) := by rw [← pow256]; exact hacc
    have hor : acc ||| (a.val <<< (k * 8)) = 2 ^ (k * 8) * a.val + acc := by
      rw [Nat.shiftLeft_eq, Nat.mul_comm, Nat.lor_comm]
      exact (Nat.mul_add_lt_is_or hacc2 _).symm
    have hnew : 2 ^ (k * 8) * a.val + acc < 256 ^ (k + 1) := by
      rw [Nat.pow_succ, pow256]
      nlinarith
    rw [List.enumFrom_cons, List.foldl_cons, hor, ih (k + 1) _ hnew]
    unfold byteVals
    rw [List.map_cons, Nat.ofDigits_cons, Nat.pow_succ, ← pow256]
    ring

theorem spec_pack_eq (str : List (Fin 256)) :
    spec_pack str = Nat.ofDigits 256 (byteVals str) := by
  unfold spec_pack List.enum
  rw [spec_fold str 0 0 (by decide)]
  simp

theorem get_value_eq_fold (signedChar : Bool) (str : List (Fin 256)) :
    ∀ (C : Nat) (h : C < str.length),
      detail.atom_helper.get_value signedChar str C h
        = ascending_pack signedChar (str.take (C + 1)) := by
  intro C
  induction C with
  | zero =>
    intro h
    cases str with
    | nil => simp at h
    | cons a tl =>
      simp [detail.atom_helper.get_value, ascending_pack, List.enum]
  | succ C ih =>
    intro h
    have htake : str.take (C + 1 + 1) = str.take (C + 1) ++ [str.get ⟨C + 1, h⟩] := by
      rw [List.take_succ, List.getElem?_eq_getElem h]
      rfl
    rw [detail.atom_helper.get_value, ih (Nat.lt_of_succ_lt h), htake]
    unfold ascending_pack
    rw [List.enum_append, List.foldl_append, List.length_take,
      Nat.min_eq_left (Nat.le_of_lt h)]
    simp [Nat.lor_comm]

theorem literal_eq_ascending (signedChar : Bool) (str : List (Fin 256)) (hN : 0 < str.length)
    (h8 : str.length ≤ 8) :
    literal signedChar str hN = some (ascending_pack signedChar str) := by
  unfold literal
  rw [if_pos h8, get_value_eq_fold]
  have : str.length - 1 + 1 = str.length := by omega
  rw [this, List.take_length]

theorem ascending_fold_zeros (signedChar : Bool) :
    ∀ (k n acc : Nat),
      ((List.replicate k (0 : Fin 256)).enumFrom n).foldl
        (fun acc ib => acc ||| detail.set_byte ib.1 (char_to_uint64 signedChar ib.2)) acc
        = acc := by
  intro k
  induction k with
  | zero => intro n acc; rfl
  | succ k ih =>
    intro n acc
    rw [List.replicate_succ, List.enumFrom_cons, List.foldl_cons, set_byte_char_zero,
      Nat.or_zero, ih]

theorem ascending_pack_append_zeros (signedChar : Bool) (l : List (Fin 256)) (k : Nat) :
    ascending_pack signedChar (l ++ List.replicate k 0) = ascending_pack signedChar l := by
  unfold ascending_pack
  rw [List.enum_append, List.foldl_append, ascending_fold_zeros]

theorem nullTail_decomp {str : List (Fin 256)} (h : nullTail str) :
    ∃ k, str = cstr str ++ List.replicate k 0 := by
  refine ⟨(str.dropWhile (fun c => decide (c ≠ 0))).length, ?_⟩
  have h1 := List.eq_replicate_of_mem h
  have h2 := List.takeWhile_append_dropWhile (fun c => decide (c ≠ 0)) str
  unfold cstr
  rw [← h1, h2]

theorem ascending_pack_of_nullTail (signedChar : Bool) {str : List (Fin 256)}
    (h : nullTail str) : ascending_pack signedChar str = ascending_pack signedChar (cstr str) := by
  obtain ⟨k, hk⟩ := nullTail_decomp h
  conv_lhs => rw [hk]
  exact ascending_pack_append_zeros _ _ _

theorem zero_atom_iff (signedChar : Bool) (str : List (Fin 256)) (hN : 0 < str.length)
    (h8 : str.length ≤ 8) : literal signedChar str hN = some 0 ↔ ∀ c ∈ str, c = 0 := by
  unfold literal
  rw [if_pos h8, Option.some_inj, get_value_eq_zero_iff _ _ _ _ (by omega)]
  constructor
  · intro h c hc
    obtain ⟨n, hn⟩ := List.get_of_mem hc
    rw [← hn]
    exact h n.val (by have := n.isLt; omega)
  · intro h i hi
    exact h _ (List.get_mem _ _ _)

/-! Claims C1 to C10. -/

/-- C1, amended.  For every literal of length `1 .. 8` whose bytes are all ASCII (`0 .. 127`),
or on a platform whose plain `char` is unsigned, `literal` returns a value whose byte `i`
(`(v >> 8 * i) & 0xFF`) is the `i`-th byte of the literal, for every `i` below the length. -/
theorem literal_byte_position (signedChar : Bool) (L : List (Fin 256)) (hN : 0 < L.length)
    (h8 : L.length ≤ 8) (hp : plainChars signedChar L) (i : Nat) (hi : i < L.length) :
    ∃ v, literal signedChar L hN = some v ∧ byteAt v i = (L.get ⟨i, hi⟩).val := by
  refine ⟨_, literal_of_plain hp hN h8, ?_⟩
  have hi2 : i < (byteVals L).length := by
    unfold byteVals
    rw [List.length_map]
    exact hi
  rw [byteAt_eq, ofDigits_div_pow_mod _ (byteVals_lt L) i hi2]
  simp [byteVals]

/-- Witness of `literal_byte_position`: byte 5 of `literal("Atom 0")` with signed `char`. -/
theorem literal_byte_position_witness :
    plainChars true [0x41, 0x74, 0x6F, 0x6D, 0x20, 0x30, 0] ∧
      ∃ v, literal true [0x41, 0x74, 0x6F, 0x6D, 0x20, 0x30, 0] (by decide) = some v ∧
        byteAt v 5 = (([0x41, 0x74, 0x6F, 0x6D, 0x20, 0x30, 0] : List (Fin 256)).get
          ⟨5, by decide⟩).val :=
  ⟨by decide, literal_byte_position true [0x41, 0x74, 0x6F, 0x6D, 0x20, 0x30, 0] (by decide)
    (by decide) (by decide) 5 (by decide)⟩

/-- C1 fails as stated: with signed `char`, `literal("\x80A")` is `0xFFFFFFFFFFFFFF80`, whose
byte 1 is `0xFF` although byte 1 of the literal is `0x41`. -/
theorem literal_byte_position_counterexample :
    literal true [0x80, 0x41, 0] (by decide) = some 0xFFFFFFFFFFFFFF80 ∧
      byteAt 0xFFFFFFFFFFFFFF80 1 = 0xFF ∧
      (([0x80, 0x41, 0] : List (Fin 256)).get ⟨1, by decide⟩).val = 0x41 := by
  decide

/-- C2, amended.  For every literal of length `N < 8` whose bytes are all ASCII, or on a
platform whose plain `char` is unsigned, `literal` returns a value below `2 ^ (8 * N)`, and
every byte of it at a position `p` with `N ≤ p ≤ 7` is zero. -/
theorem literal_zero_padding (signedChar : Bool) (L : List (Fin 256)) (hN : 0 < L.length)
    (h8 : L.length < 8) (hp : plainChars signedChar L) :
    ∃ v, literal signedChar L hN = some v ∧ v < 2 ^ (8 * L.length) ∧
      ∀ p, L.length ≤ p → p ≤ 7 → byteAt v p = 0 := by
  have hlt : Nat.ofDigits 256 (byteVals L) < 256 ^ L.length := by
    have := Nat.ofDigits_lt_base_pow_length (b := 256) (by decide) (byteVals_lt L)
    simpa [byteVals] using this
  refine ⟨_, literal_of_plain hp hN (Nat.le_of_lt h8), ?_, ?_⟩
  · rw [Nat.mul_comm, ← pow256]
    exact hlt
  · intro p hp1 _
    exact byteAt_zero_of_lt hlt hp1

/-- Witness of `literal_zero_padding`: `literal("Atom 1")` with signed `char`. -/
theorem literal_zero_padding_witness :
    plainChars true [0x41, 0x74, 0x6F, 0x6D, 0x20, 0x31, 0] ∧
      ∃ v, literal true [0x41, 0x74, 0x6F, 0x6D, 0x20, 0x31, 0] (by decide) = some v ∧
        v < 2 ^ (8 * ([0x41, 0x74, 0x6F, 0x6D, 0x20, 0x31, 0] : List (Fin 256)).length) ∧
        ∀ p, ([0x41, 0x74, 0x6F, 0x6D, 0x20, 0x31, 0] : List (Fin 256)).length ≤ p → p ≤ 7 →
          byteAt v p = 0 :=
  ⟨by decide, literal_zero_padding true [0x41, 0x74, 0x6F, 0x6D, 0x20, 0x31, 0] (by decide)
    (by decide) (by decide)⟩

/-- C2 fails as stated: with signed `char`, `literal("\x80")` (length 2) is
`0xFFFFFFFFFFFFFF80`; its bytes 2 and 7 are `0xFF` and it is not below `2 ^ 16`. -/
theorem literal_zero_padding_counterexample :
    literal true [0x80, 0] (by decide) = some 0xFFFFFFFFFFFFFF80 ∧
      byteAt 0xFFFFFFFFFFFFFF80 2 = 0xFF ∧ byteAt 0xFFFFFFFFFFFFFF80 7 = 0xFF ∧
      ¬ (0xFFFFFFFFFFFFFF80 < 2 ^ (8 * 2)) := by
  decide

/-- C3, amended.  For all literals `L1`, `L2` of length `1 .. 8` whose bytes are all ASCII, or
on a platform whose plain `char` is unsigned: if `L1` and `L2` differ once both are padded
with null bytes to 8 bytes, then `literal(L1) != literal(L2)`; in particular two literals of
the same length that differ in content give different atoms; and if the padded forms are
equal, that is `L1` and `L2` differ only in the number of trailing null bytes, then
`literal(L1) == literal(L2)`. -/
theorem literal_injective_padded (signedChar : Bool) (L1 L2 : List (Fin 256))
    (hN1 : 0 < L1.length) (hN2 : 0 < L2.length) (h81 : L1.length ≤ 8) (h82 : L2.length ≤ 8)
    (hp1 : plainChars signedChar L1) (hp2 : plainChars signedChar L2) :
    (pad8 L1 ≠ pad8 L2 → literal signedChar L1 hN1 ≠ literal signedChar L2 hN2) ∧
      (L1.length = L2.length → L1 ≠ L2 →
        literal signedChar L1 hN1 ≠ literal signedChar L2 hN2) ∧
      (pad8 L1 = pad8 L2 → literal signedChar L1 hN1 = literal signedChar L2 hN2) := by
  rw [literal_of_plain hp1 hN1 h81, literal_of_plain hp2 hN2 h82]
  refine ⟨?_, ?_, ?_⟩
  · intro hne heq
    exact hne (pad8_eq_of_ofDigits_eq h81 h82 (Option.some_inj.1 heq))
  · intro hlen hne heq
    apply hne
    apply byteVals_injective
    apply ofDigits_inj_of_length_eq _ _ (byteVals_lt _) (byteVals_lt _)
    · unfold byteVals
      rw [List.length_map, List.length_map, hlen]
    · exact Option.some_inj.1 heq
  · intro hpad
    have h1 : Nat.ofDigits 256 (byteVals (pad8 L1)) = Nat.ofDigits 256 (byteVals L1) :=
      ofDigits_append_zeros L1 _
    have h2 : Nat.ofDigits 256 (byteVals (pad8 L2)) = Nat.ofDigits 256 (byteVals L2) :=
      ofDigits_append_zeros L2 _
    rw [← h1, ← h2, hpad]

/-- Witness of `literal_injective_padded`: `"Atom 0"` and `"Atom 1"` with signed `char`. -/
theorem literal_injective_padded_witness :
    (plainChars true [0x41, 0x74, 0x6F, 0x6D, 0x20, 0x30, 0] ∧
      plainChars true [0x41, 0x74, 0x6F, 0x6D, 0x20, 0x31, 0]) ∧
    ((pad8 [0x41, 0x74, 0x6F, 0x6D, 0x20, 0x30, 0] ≠ pad8 [0x41, 0x74, 0x6F, 0x6D, 0x20, 0x31, 0] →
        literal true [0x41, 0x74, 0x6F, 0x6D, 0x20, 0x30, 0] (by decide)
          ≠ literal true [0x41, 0x74, 0x6F, 0x6D, 0x20, 0x31, 0] (by decide)) ∧
      (([0x41, 0x74, 0x6F, 0x6D, 0x20, 0x30, 0] : List (Fin 256)).length
          = ([0x41, 0x74, 0x6F, 0x6D, 0x20, 0x31, 0] : List (Fin 256)).length →
        ([0x41, 0x74, 0x6F, 0x6D, 0x20, 0x30, 0] : List (Fin 256))
          ≠ [0x41, 0x74, 0x6F, 0x6D, 0x20, 0x31, 0] →
        literal true [0x41, 0x74, 0x6F, 0x6D, 0x20, 0x30, 0] (by decide)
          ≠ literal true [0x41, 0x74, 0x6F, 0x6D, 0x20, 0x31, 0] (by decide)) ∧
      (pad8 [0x41, 0x74, 0x6F, 0x6D, 0x20, 0x30, 0] = pad8 [0x41, 0x74, 0x6F, 0x6D, 0x20, 0x31, 0] →
        literal true [0x41, 0x74, 0x6F, 0x6D, 0x20, 0x30, 0] (by decide)
          = literal true [0x41, 0x74, 0x6F, 0x6D, 0x20, 0x31, 0] (by decide))) :=
  ⟨⟨by decide, by decide⟩,
    literal_injective_padded true [0x41, 0x74, 0x6F, 0x6D, 0x20, 0x30, 0]
      [0x41, 0x74, 0x6F, 0x6D, 0x20, 0x31, 0] (by decide) (by decide) (by decide) (by decide)
      (by decide) (by decide)⟩

/-- C3 fails as stated.  The literals `"A"` (bytes `41 00`) and `"A\0"` (bytes `41 00 00`)
differ in length and give the same atom `0x41` on every platform; and with signed `char` the
literals `"\x80A"` and `"\x80B"`, of one length and different content, both give
`0xFFFFFFFFFFFFFF80`. -/
theorem literal_injective_counterexample :
    (∀ signedChar : Bool,
      ([0x41, 0] : List (Fin 256)) ≠ [0x41, 0, 0] ∧
      literal signedChar [0x41, 0] (by decide) = some 0x41 ∧
      literal signedChar [0x41, 0, 0] (by decide) = some 0x41) ∧
    (([0x80, 0x41, 0] : List (Fin 256)) ≠ [0x80, 0x42, 0] ∧
      literal true [0x80, 0x41, 0] (by decide) = some 0xFFFFFFFFFFFFFF80 ∧
      literal true [0x80, 0x42, 0] (by decide) = some 0xFFFFFFFFFFFFFF80) := by
  decide

/-- C4, amended.  For all literals `L1`, `L2` of length `1 .. 8`: when their bytes are all
ASCII or plain `char` is unsigned, `literal(L1) == literal(L2)` implies that the C strings
they hold are equal; and when in both literals every byte after the first null byte is null,
equal C strings imply `literal(L1) == literal(L2)`. -/
theorem literal_eq_cstr (signedChar : Bool) (L1 L2 : List (Fin 256))
    (hN1 : 0 < L1.length) (hN2 : 0 < L2.length) (h81 : L1.length ≤ 8) (h82 : L2.length ≤ 8) :
    (plainChars signedChar L1 → plainChars signedChar L2 →
        literal signedChar L1 hN1 = literal signedChar L2 hN2 → cstr L1 = cstr L2) ∧
      (nullTail L1 → nullTail L2 → cstr L1 = cstr L2 →
        literal signedChar L1 hN1 = literal signedChar L2 hN2) := by
  constructor
  · intro hp1 hp2 heq
    rw [literal_of_plain hp1 hN1 h81, literal_of_plain hp2 hN2 h82] at heq
    have hpad := pad8_eq_of_ofDigits_eq h81 h82 (Option.some_inj.1 heq)
    have h1 : cstr (pad8 L1) = cstr L1 := cstr_append_zeros _ _
    have h2 : cstr (pad8 L2) = cstr L2 := cstr_append_zeros _ _
    rw [← h1, ← h2, hpad]
  · intro ht1 ht2 hc
    rw [literal_eq_ascending _ _ hN1 h81, literal_eq_ascending _ _ hN2 h82,
      ascending_pack_of_nullTail _ ht1, ascending_pack_of_nullTail _ ht2, hc]

/-- Witness of `literal_eq_cstr`: `"A"` and `"A\0"` with signed `char`. -/
theorem literal_eq_cstr_witness :
    (([0x41, 0] : List (Fin 256)).length ≤ 8 ∧ ([0x41, 0, 0] : List (Fin 256)).length ≤ 8) ∧
    ((plainChars true [0x41, 0] → plainChars true [0x41, 0, 0] →
        literal true [0x41, 0] (by decide) = literal true [0x41, 0, 0] (by decide) →
        cstr [0x41, 0] = cstr [0x41, 0, 0]) ∧
      (nullTail [0x41, 0] → nullTail [0x41, 0, 0] → cstr [0x41, 0] = cstr [0x41, 0, 0] →
        literal true [0x41, 0] (by decide) = literal true [0x41, 0, 0] (by decide))) :=
  ⟨⟨by decide, by decide⟩,
    literal_eq_cstr true [0x41, 0] [0x41, 0, 0] (by decide) (by decide) (by decide)
      (by decide)⟩

/-- C4 fails as stated.  The literals `"A\0B"` (bytes `41 00 42 00`) and `"A"` hold the same
C string and give the different atoms `0x420041` and `0x41` on every platform; and with signed
`char` the literals `"\x80A"` and `"\x80B"` give the same atom although their C strings
differ. -/
theorem literal_eq_cstr_counterexample :
    (∀ signedChar : Bool,
      cstr [0x41, 0, 0x42, 0] = cstr [0x41, 0] ∧
      literal signedChar [0x41, 0, 0x42, 0] (by decide) = some 0x420041 ∧
      literal signedChar [0x41, 0] (by decide) = some 0x41) ∧
    (cstr [0x80, 0x41, 0] ≠ cstr [0x80, 0x42, 0] ∧
      literal true [0x80, 0x41, 0] (by decide) = literal true [0x80, 0x42, 0] (by decide)) := by
  decide

/-- C5.  `literal` accepts an array of length `N ≥ 1` if and only if `N ≤ 8`, and it rejects
one if and only if `8 < N`: `N = 8` is accepted, `N = 9` is rejected, and the length is the
only reason for rejection. -/
theorem literal_accepts_iff (signedChar : Bool) (str : List (Fin 256))
    (hN : 0 < str.length) :
    ((literal signedChar str hN).isSome ↔ str.length ≤ 8) ∧
      (literal signedChar str hN = none ↔ 8 < str.length) ∧
      (str.length = 8 → (literal signedChar str hN).isSome) ∧
      (str.length = 9 → literal signedChar str hN = none) := by
  unfold literal
  by_cases h : str.length ≤ 8
  · rw [if_pos h]
    simp
    omega
  · rw [if_neg h]
    simp
    omega

/-- Witness of `literal_accepts_iff`: the 9-byte array of `"12345678"`. -/
theorem literal_accepts_iff_witness :
    0 < ([0x31, 0x32, 0x33, 0x34, 0x35, 0x36, 0x37, 0x38, 0] : List (Fin 256)).length ∧
    (((literal false [0x31, 0x32, 0x33, 0x34, 0x35, 0x36, 0x37, 0x38, 0] (by decide)).isSome ↔
        ([0x31, 0x32, 0x33, 0x34, 0x35, 0x36, 0x37, 0x38, 0] : List (Fin 256)).length ≤ 8) ∧
      (literal false [0x31, 0x32, 0x33, 0x34, 0x35, 0x36, 0x37, 0x38, 0] (by decide) = none ↔
        8 < ([0x31, 0x32, 0x33, 0x34, 0x35, 0x36, 0x37, 0x38, 0] : List (Fin 256)).length) ∧
      (([0x31, 0x32, 0x33, 0x34, 0x35, 0x36, 0x37, 0x38, 0] : List (Fin 256)).length = 8 →
        (literal false [0x31, 0x32, 0x33, 0x34, 0x35, 0x36, 0x37, 0x38, 0]
          (by decide)).isSome) ∧
      (([0x31, 0x32, 0x33, 0x34, 0x35, 0x36, 0x37, 0x38, 0] : List (Fin 256)).length = 9 →
        literal false [0x31, 0x32, 0x33, 0x34, 0x35, 0x36, 0x37, 0x38, 0] (by decide)
          = none)) :=
  ⟨by decide,
    literal_accepts_iff false [0x31, 0x32, 0x33, 0x34, 0x35, 0x36, 0x37, 0x38, 0] (by decide)⟩

/-- C6.  On either kind of platform `literal("Atom 0")` is `52915833107521`,
`literal("Atom 1")` is `54015344735297`, and the two atoms are unequal. -/
theorem literal_documented_values :
    ∀ signedChar : Bool,
      literal signedChar [0x41, 0x74, 0x6F, 0x6D, 0x20, 0x30, 0] (by decide)
        = some 52915833107521 ∧
      literal signedChar [0x41, 0x74, 0x6F, 0x6D, 0x20, 0x31, 0] (by decide)
        = some 54015344735297 ∧
      literal signedChar [0x41, 0x74, 0x6F, 0x6D, 0x20, 0x30, 0] (by decide)
        ≠ literal signedChar [0x41, 0x74, 0x6F, 0x6D, 0x20, 0x31, 0] (by decide) := by
  decide

/-- C7, amended.  For every string of `k` characters with `0 ≤ k ≤ 7`, on either kind of
platform, `literal` applied to the C string literal for it (the `k` characters followed by the
terminating null, array length `k + 1`) is accepted and returns the packed value of those
characters: the ascending OR of `set_byte(i, c_i)` over the `k` characters, which is the
value of the loop of the specification over their raw bytes when the characters are all
ASCII or plain `char` is unsigned.  For `k = 8` the array has length 9 and `literal` rejects
it. -/
theorem literal_string_characters (signedChar : Bool) (cs : List (Fin 256)) :
    (cs.length ≤ 7 →
        ∃ v, literal signedChar (cs ++ [0]) (by simp) = some v ∧
          v = ascending_pack signedChar cs ∧
          (plainChars signedChar cs → v = spec_pack cs)) ∧
      (cs.length = 8 → literal signedChar (cs ++ [0]) (by simp) = none) := by
  constructor
  · intro h7
    have hN : 0 < (cs ++ [(0 : Fin 256)]).length := by simp
    have h8 : (cs ++ [(0 : Fin 256)]).length ≤ 8 := by
      rw [List.length_append, List.length_singleton]
      omega
    have hasc : ascending_pack signedChar (cs ++ [0]) = ascending_pack signedChar cs :=
      ascending_pack_append_zeros signedChar cs 1
    refine ⟨_, literal_eq_ascending signedChar _ hN h8, hasc, ?_⟩
    intro hp
    have hp2 : plainChars signedChar (cs ++ [0]) := by
      rcases hp with h | h
      · exact Or.inl h
      · refine Or.inr (fun c hc => ?_)
        rcases List.mem_append.1 hc with h1 | h1
        · exact h c h1
        · rw [List.mem_singleton.1 h1]
          decide
    have h1 := literal_of_plain hp2 hN h8
    rw [literal_eq_ascending signedChar _ hN h8] at h1
    have hval : Nat.ofDigits 256 (byteVals (cs ++ [0])) = Nat.ofDigits 256 (byteVals cs) :=
      ofDigits_append_zeros cs 1
    rw [Option.some_inj.1 h1, hval, spec_pack_eq]
  · intro h8
    unfold literal
    rw [if_neg]
    rw [List.length_append, List.length_singleton]
    omega

/-- Witness of `literal_string_characters`: the 7 characters of `"ABCDEFG"` with signed
`char`. -/
theorem literal_string_characters_witness :
    (([0x41, 0x42, 0x43, 0x44, 0x45, 0x46, 0x47] : List (Fin 256)).length ≤ 7 ∧
      plainChars true [0x41, 0x42, 0x43, 0x44, 0x45, 0x46, 0x47]) ∧
    ∃ v, literal true ([0x41, 0x42, 0x43, 0x44, 0x45, 0x46, 0x47] ++ [0]) (by simp) = some v ∧
      v = ascending_pack true [0x41, 0x42, 0x43, 0x44, 0x45, 0x46, 0x47] ∧
      (plainChars true [0x41, 0x42, 0x43, 0x44, 0x45, 0x46, 0x47] →
        v = spec_pack [0x41, 0x42, 0x43, 0x44, 0x45, 0x46, 0x47]) :=
  ⟨⟨by decide, by decide⟩,
    (literal_string_characters true [0x41, 0x42, 0x43, 0x44, 0x45, 0x46, 0x47]).1
      (by decide)⟩

/-- C7 fails as stated at `k = 8`: the string literal `"ABCDEFGH"` has 8 characters, its
array has length 9, and `literal` rejects it on either kind of platform. -/
theorem literal_eight_characters_rejected :
    literal true [0x41, 0x42, 0x43, 0x44, 0x45, 0x46, 0x47, 0x48, 0] (by decide) = none ∧
      literal false [0x41, 0x42, 0x43, 0x44, 0x45, 0x46, 0x47, 0x48, 0] (by decide)
        = none := by
  decide

/-- C8, amended.  For every literal `L` of length `N` with `1 ≤ N ≤ 8` the descending
recursion `atom_helper<N, N - 1>::get_value` equals the ascending loop that starts from zero
and ORs in `set_byte(i, L[i])` for `i = 0 .. N - 1`; and it equals the loop of the
specification over the raw byte values when all bytes are ASCII or plain `char` is
unsigned. -/
theorem get_value_eq_spec_pack (signedChar : Bool) (L : List (Fin 256)) (hN : 0 < L.length)
    (h8 : L.length ≤ 8) :
    detail.atom_helper.get_value signedChar L (L.length - 1) (Nat.sub_lt hN Nat.one_pos)
        = ascending_pack signedChar L ∧
      (plainChars signedChar L →
        detail.atom_helper.get_value signedChar L (L.length - 1) (Nat.sub_lt hN Nat.one_pos)
          = spec_pack L) := by
  have hlen : L.length - 1 + 1 = L.length := by omega
  constructor
  · rw [get_value_eq_fold, hlen, List.take_length]
  · intro hp
    rw [get_value_of_plain hp _ _ (by omega), hlen, List.take_length, spec_pack_eq]

/-- Witness of `get_value_eq_spec_pack`: `"Atom 0"` with signed `char`. -/
theorem get_value_eq_spec_pack_witness :
    ([0x41, 0x74, 0x6F, 0x6D, 0x20, 0x30, 0] : List (Fin 256)).length ≤ 8 ∧
    (detail.atom_helper.get_value true [0x41, 0x74, 0x6F, 0x6D, 0x20, 0x30, 0]
          (([0x41, 0x74, 0x6F, 0x6D, 0x20, 0x30, 0] : List (Fin 256)).length - 1)
          (Nat.sub_lt (by decide) Nat.one_pos)
        = ascending_pack true [0x41, 0x74, 0x6F, 0x6D, 0x20, 0x30, 0] ∧
      (plainChars true [0x41, 0x74, 0x6F, 0x6D, 0x20, 0x30, 0] →
        detail.atom_helper.get_value true [0x41, 0x74, 0x6F, 0x6D, 0x20, 0x30, 0]
            (([0x41, 0x74, 0x6F, 0x6D, 0x20, 0x30, 0] : List (Fin 256)).length - 1)
            (Nat.sub_lt (by decide) Nat.one_pos)
          = spec_pack [0x41, 0x74, 0x6F, 0x6D, 0x20, 0x30, 0])) :=
  ⟨by decide,
    get_value_eq_spec_pack true [0x41, 0x74, 0x6F, 0x6D, 0x20, 0x30, 0] (by decide)
      (by decide)⟩

/-- C8 fails as stated: for `"\x80"` with signed `char` the recursion `atom_helper<2, 1>`
gives `0xFFFFFFFFFFFFFF80` and the loop of the specification gives `0x80`. -/
theorem get_value_eq_spec_pack_counterexample :
    detail.atom_helper.get_value true [0x80, 0] 1 (by decide) = 0xFFFFFFFFFFFFFF80 ∧
      spec_pack [0x80, 0] = 0x80 := by
  decide

/-- C9, amended.  For every literal of exactly 8 bytes whose last byte is the null
terminator and whose first 7 bytes are nonzero, when those bytes are all ASCII (`1 .. 127`) or
plain `char` is unsigned: `literal` accepts it, the result is nonzero, byte 7 of the result is
0, and the result is below `2 ^ 56`. -/
theorem literal_full_budget (signedChar : Bool) (cs : List (Fin 256)) (hlen : cs.length = 7)
    (hnz : ∀ c ∈ cs, c ≠ 0) (hp : plainChars signedChar cs) :
    ∃ v, literal signedChar (cs ++ [0]) (by simp) = some v ∧
      v ≠ 0 ∧ byteAt v 7 = 0 ∧ v < 2 ^ 56 := by
  have hN : 0 < (cs ++ [(0 : Fin 256)]).length := by simp
  have h8 : (cs ++ [(0 : Fin 256)]).length ≤ 8 := by simp [hlen]
  have hp2 : plainChars signedChar (cs ++ [0]) := by
    rcases hp with h | h
    · exact Or.inl h
    · refine Or.inr (fun c hc => ?_)
      rcases List.mem_append.1 hc with h1 | h1
      · exact h c h1
      · rw [List.mem_singleton.1 h1]
        decide
  have hval : Nat.ofDigits 256 (byteVals (cs ++ [0])) = Nat.ofDigits 256 (byteVals cs) :=
    ofDigits_append_zeros cs 1
  have hlt : Nat.ofDigits 256 (byteVals cs) < 256 ^ 7 := by
    have := Nat.ofDigits_lt_base_pow_length (b := 256) (by decide) (byteVals_lt cs)
    simpa [byteVals, hlen] using this
  have hlit := literal_of_plain hp2 hN h8
  refine ⟨_, hlit, ?_, ?_, ?_⟩
  · intro h0
    rw [h0] at hlit
    have hall := (zero_atom_iff signedChar _ hN h8).1 hlit
    cases cs with
    | nil => simp at hlen
    | cons a tl =>
      exact hnz a (List.mem_cons_self _ _) (hall a (by simp))
  · rw [hval]
    exact byteAt_zero_of_lt hlt (Nat.le_refl _)
  · rw [hval]
    exact hlt

/-- Witness of `literal_full_budget`: `"ABCDEFG"` with signed `char`. -/
theorem literal_full_budget_witness :
    (([0x41, 0x42, 0x43, 0x44, 0x45, 0x46, 0x47] : List (Fin 256)).length = 7 ∧
      (∀ c ∈ ([0x41, 0x42, 0x43, 0x44, 0x45, 0x46, 0x47] : List (Fin 256)), c ≠ 0) ∧
      plainChars true [0x41, 0x42, 0x43, 0x44, 0x45, 0x46, 0x47]) ∧
    ∃ v, literal true ([0x41, 0x42, 0x43, 0x44, 0x45, 0x46, 0x47] ++ [0]) (by simp) = some v ∧
      v ≠ 0 ∧ byteAt v 7 = 0 ∧ v < 2 ^ 56 :=
  ⟨⟨by decide, by decide, by decide⟩,
    literal_full_budget true [0x41, 0x42, 0x43, 0x44, 0x45, 0x46, 0x47] (by decide)
      (by decide) (by decide)⟩

/-- C9 fails as stated: with signed `char` the 8-byte literal `"\x80BCDEFG"`, whose first 7
bytes are nonzero and whose last byte is null, gives `0xFFFFFFFFFFFFFF80`; byte 7 of it is
`0xFF` and it is not below `2 ^ 56`. -/
theorem literal_full_budget_counterexample :
    literal true [0x80, 0x42, 0x43, 0x44, 0x45, 0x46, 0x47, 0] (by decide)
        = some 0xFFFFFFFFFFFFFF80 ∧
      byteAt 0xFFFFFFFFFFFFFF80 7 = 0xFF ∧ ¬ (0xFFFFFFFFFFFFFF80 < 2 ^ 56) := by
  decide

/-- C10.  For every literal `L` of length `1 .. 8`, on either kind of platform,
`literal(L) == 0` if and only if every byte of `L` is zero; and the empty string literal `""`
(the terminator alone) packs to 0. -/
theorem literal_zero_iff (signedChar : Bool) (L : List (Fin 256)) (hN : 0 < L.length)
    (h8 : L.length ≤ 8) :
    (literal signedChar L hN = some 0 ↔ ∀ c ∈ L, c = 0) ∧
      literal signedChar [0] (by decide) = some 0 := by
  refine ⟨zero_atom_iff signedChar L hN h8, ?_⟩
  exact (zero_atom_iff signedChar [0] (by decide) (by decide)).2 (by simp)

/-- Witness of `literal_zero_iff`: the literal `"\xFF"` with signed `char`. -/
theorem literal_zero_iff_witness :
    ([0xFF, 0] : List (Fin 256)).length ≤ 8 ∧
    ((literal true [0xFF, 0] (by decide) = some 0 ↔
        ∀ c ∈ ([0xFF, 0] : List (Fin 256)), c = 0) ∧
      literal true [0] (by decide) = some 0) :=
  ⟨by decide, literal_zero_iff true [0xFF, 0] (by decide) (by decide)⟩

/-! The record of calls, the positional sum, and claims C11 to C14. -/

theorem get_value_traced_fst (signedChar : Bool) (str : List (Fin 256)) :
    ∀ (C : Nat) (h : C < str.length),
      (detail.atom_helper.get_value_traced signedChar str C h).1
        = detail.atom_helper.get_value signedChar str C h := by
  intro C
  induction C with
  | zero => intro h; rfl
  | succ C ih =>
    intro h
    rw [detail.atom_helper.get_value_traced, detail.atom_helper.get_value,
      ih (Nat.lt_of_succ_lt h)]

theorem get_value_traced_snd (signedChar : Bool) (str : List (Fin 256)) :
    ∀ (C : Nat) (h : C < str.length),
      (detail.atom_helper.get_value_traced signedChar str C h).2
        = (List.range (C + 1)).reverse.map (fun i => (i, detail.set_byte_shift i)) := by
  intro C
  induction C with
  | zero => intro h; rfl
  | succ C ih =>
    intro h
    rw [detail.atom_helper.get_value_traced, ih (Nat.lt_of_succ_lt h),
      List.range_succ (C + 1), List.reverse_concat, List.map_cons]

theorem positional_fold (l : List (Fin 256)) :
    ∀ (k : Nat),
      ((l.enumFrom k).map (fun ib => ib.2.val * 256 ^ ib.1)).sum
        = 256 ^ k * Nat.ofDigits 256 (byteVals l) := by
  induction l with
  | nil => intro k; simp [byteVals]
  | cons a tl ih =>
    intro k
    rw [List.enumFrom_cons, List.map_cons, List.sum_cons, ih (k + 1)]
    unfold byteVals
    rw [List.map_cons, Nat.ofDigits_cons, Nat.pow_succ]
    ring

theorem positional_sum_eq (str : List (Fin 256)) :
    positional_sum str = Nat.ofDigits 256 (byteVals str) := by
  unfold positional_sum List.enum
  rw [positional_fold str 0]
  simp

/-- C11.  For every array of length `N` with `1 ≤ N ≤ 8` the recursion started at
`atom_helper<N, N - 1>` returns the value of `get_value` after exactly `N` calls; the calls
read each index `0 .. N - 1` of `str` exactly once and no index `≥ N`; and every call of
`set_byte` shifts by `byte * 8`, a multiple of 8 that is at most 56 and so below the 64 bits
of `atom_uint64_t`. -/
theorem get_value_traced_safe (signedChar : Bool) (str : List (Fin 256))
    (hN : 0 < str.length) (h8 : str.length ≤ 8) :
    (detail.atom_helper.get_value_traced signedChar str (str.length - 1)
        (Nat.sub_lt hN Nat.one_pos)).1
      = detail.atom_helper.get_value signedChar str (str.length - 1)
        (Nat.sub_lt hN Nat.one_pos) ∧
    (detail.atom_helper.get_value_traced signedChar str (str.length - 1)
        (Nat.sub_lt hN Nat.one_pos)).2.length = str.length ∧
    (∀ i, i < str.length →
      ((detail.atom_helper.get_value_traced signedChar str (str.length - 1)
        (Nat.sub_lt hN Nat.one_pos)).2.map Prod.fst).count i = 1) ∧
    (∀ c ∈ (detail.atom_helper.get_value_traced signedChar str (str.length - 1)
        (Nat.sub_lt hN Nat.one_pos)).2, c.1 < str.length) ∧
    (∀ c ∈ (detail.atom_helper.get_value_traced signedChar str (str.length - 1)
        (Nat.sub_lt hN Nat.one_pos)).2,
      c.2 = c.1 * 8 ∧ 8 ∣ c.2 ∧ c.2 ≤ 56 ∧ c.2 < 64) ∧
    (∀ byte value, detail.set_byte byte value
      = (value <<< detail.set_byte_shift byte) % atom_uint64_mod) := by
  have hlen : str.length - 1 + 1 = str.length := by omega
  have hmem : ∀ c ∈ (detail.atom_helper.get_value_traced signedChar str (str.length - 1)
      (Nat.sub_lt hN Nat.one_pos)).2, c.1 < str.length ∧ c.2 = c.1 * 8 := by
    intro c hc
    rw [get_value_traced_snd, hlen] at hc
    obtain ⟨i, hi, rfl⟩ := List.mem_map.1 hc
    exact ⟨List.mem_range.1 (List.mem_reverse.1 hi), rfl⟩
  refine ⟨get_value_traced_fst _ _ _ _, ?_, ?_, ?_, ?_, ?_⟩
  · rw [get_value_traced_snd, hlen]
    simp
  · intro i hi
    rw [get_value_traced_snd, hlen, List.map_map]
    have hid : (Prod.fst ∘ fun i => (i, detail.set_byte_shift i)) = id := rfl
    rw [hid, List.map_id]
    exact List.count_eq_one_of_mem (List.nodup_reverse.2 (List.nodup_range _))
      (List.mem_reverse.2 (List.mem_range.2 hi))
  · intro c hc
    exact (hmem c hc).1
  · intro c hc
    obtain ⟨h1, h2⟩ := hmem c hc
    refine ⟨h2, ⟨c.1, by omega⟩, by omega, by omega⟩
  · intro byte value
    rfl

/-- Witness of `get_value_traced_safe`: the 8-byte array of `"ABCDEFG"`. -/
theorem get_value_traced_safe_witness :
    ([0x41, 0x42, 0x43, 0x44, 0x45, 0x46, 0x47, 0] : List (Fin 256)).length ≤ 8 ∧
    (detail.atom_helper.get_value_traced true [0x41, 0x42, 0x43, 0x44, 0x45, 0x46, 0x47, 0]
        7 (by decide)).2
      = [(7, 56), (6, 48), (5, 40), (4, 32), (3, 24), (2, 16), (1, 8), (0, 0)] ∧
    (∀ c ∈ (detail.atom_helper.get_value_traced true
        [0x41, 0x42, 0x43, 0x44, 0x45, 0x46, 0x47, 0] 7 (by decide)).2,
      c.2 = c.1 * 8 ∧ 8 ∣ c.2 ∧ c.2 ≤ 56 ∧ c.2 < 64) :=
  ⟨by decide, by decide,
    (get_value_traced_safe true [0x41, 0x42, 0x43, 0x44, 0x45, 0x46, 0x47, 0] (by decide)
      (by decide)).2.2.2.2.1⟩

/-- C12.  For every literal `L` of length `N` with `1 ≤ N ≤ 8` whose bytes are all ASCII
(`0 .. 127`), on either kind of platform, `literal(L)` is the arithmetic sum over `i < N` of
`L[i] * 256 ^ i`, which is below `2 ^ 64`; no `set_byte` loses a bit (`set_byte(C, L[C])` is
`L[C] * 256 ^ C`), and every OR of the recursion equals the addition of its operands. -/
theorem literal_positional_sum (signedChar : Bool) (L : List (Fin 256)) (hN : 0 < L.length)
    (h8 : L.length ≤ 8) (hascii : ∀ c ∈ L, c.val < 128) :
    literal signedChar L hN = some (positional_sum L) ∧
      positional_sum L < 2 ^ 64 ∧
      (∀ (C : Nat) (h : C < L.length),
        detail.set_byte C (char_to_uint64 signedChar (L.get ⟨C, h⟩))
          = (L.get ⟨C, h⟩).val * 256 ^ C) ∧
      (∀ (C : Nat) (h : C + 1 < L.length),
        detail.set_byte (C + 1) (char_to_uint64 signedChar (L.get ⟨C + 1, h⟩)) |||
            detail.atom_helper.get_value signedChar L C (Nat.lt_of_succ_lt h)
          = detail.set_byte (C + 1) (char_to_uint64 signedChar (L.get ⟨C + 1, h⟩)) +
            detail.atom_helper.get_value signedChar L C (Nat.lt_of_succ_lt h)) := by
  have hp : plainChars signedChar L := Or.inr hascii
  have hset : ∀ (C : Nat) (h : C < L.length),
      detail.set_byte C (char_to_uint64 signedChar (L.get ⟨C, h⟩))
        = 2 ^ (C * 8) * (L.get ⟨C, h⟩).val := by
    intro C h
    rw [char_to_uint64_of_plain hp (List.get_mem _ _ _),
      set_byte_of_lt (by omega) (Fin.isLt _)]
  refine ⟨?_, ?_, ?_, ?_⟩
  · rw [positional_sum_eq]
    exact literal_of_plain hp hN h8
  · rw [positional_sum_eq]
    have h1 := Nat.ofDigits_lt_base_pow_length (b := 256) (by decide) (byteVals_lt L)
    have h2 : (256 : Nat) ^ (byteVals L).length ≤ 256 ^ 8 := by
      apply Nat.pow_le_pow_right (by decide)
      unfold byteVals
      rw [List.length_map]
      exact h8
    calc Nat.ofDigits 256 (byteVals L) < 256 ^ (byteVals L).length := h1
      _ ≤ 256 ^ 8 := h2
      _ = 2 ^ 64 := by norm_num
  · intro C h
    rw [hset C h, pow256, Nat.mul_comm]
  · intro C h
    rw [hset (C + 1) h, get_value_of_plain hp _ _ (by omega)]
    have hlt : Nat.ofDigits 256 (byteVals (L.take (C + 1))) < 2 ^ ((C + 1) * 8) := by
      have := Nat.ofDigits_lt_base_pow_length (b := 256) (by decide)
        (byteVals_lt (L.take (C + 1)))
      rw [pow256] at this
      simpa [byteVals, Nat.min_eq_left (Nat.le_of_lt h)] using this
    exact (Nat.mul_add_lt_is_or hlt _).symm

/-- Witness of `literal_positional_sum`: `"Atom 0"` with signed `char`. -/
theorem literal_positional_sum_witness :
    (([0x41, 0x74, 0x6F, 0x6D, 0x20, 0x30, 0] : List (Fin 256)).length ≤ 8 ∧
      ∀ c ∈ ([0x41, 0x74, 0x6F, 0x6D, 0x20, 0x30, 0] : List (Fin 256)), c.val < 128) ∧
    literal true [0x41, 0x74, 0x6F, 0x6D, 0x20, 0x30, 0] (by decide)
      = some (positional_sum [0x41, 0x74, 0x6F, 0x6D, 0x20, 0x30, 0]) ∧
    positional_sum [0x41, 0x74, 0x6F, 0x6D, 0x20, 0x30, 0] = 52915833107521 :=
  ⟨⟨by decide, by decide⟩,
    (literal_positional_sum true [0x41, 0x74, 0x6F, 0x6D, 0x20, 0x30, 0] (by decide)
      (by decide) (by decide)).1,
    by decide⟩

/-- C13.  For every byte sequence `L` of length `N` with `1 ≤ N ≤ 7`, on either kind of
platform, `literal` accepts both `L` and `L` followed by one null byte and returns the same
atom for them: the packed value does not record the length of the literal. -/
theorem literal_trailing_null (signedChar : Bool) (L : List (Fin 256)) (hN : 0 < L.length)
    (h7 : L.length ≤ 7) :
    ∃ v, literal signedChar L hN = some v ∧
      literal signedChar (L ++ [0]) (by simp) = some v := by
  refine ⟨_, literal_eq_ascending signedChar L hN (by omega), ?_⟩
  have hN2 : 0 < (L ++ List.replicate 1 (0 : Fin 256)).length := by simp
  have h8 : (L ++ List.replicate 1 (0 : Fin 256)).length ≤ 8 := by
    rw [List.length_append, List.length_replicate]
    omega
  have := literal_append_zeros signedChar L 1 hN hN2 h8
  rw [literal_eq_ascending signedChar L hN (by omega)] at this
  exact this

/-- Witness of `literal_trailing_null`: `"\xFFA"` (bytes `FF 41 00`) with signed `char`. -/
theorem literal_trailing_null_witness :
    ([0xFF, 0x41, 0] : List (Fin 256)).length ≤ 7 ∧
    ∃ v, literal true [0xFF, 0x41, 0] (by decide) = some v ∧
      literal true ([0xFF, 0x41, 0] ++ [0]) (by simp) = some v :=
  ⟨by decide, literal_trailing_null true [0xFF, 0x41, 0] (by decide) (by decide)⟩

/-- C14.  For every literal of length `1 .. 8` whose bytes are all in `0 .. 127`, every
`char` converts to the same `atom_uint64_t` whether plain `char` is signed (sign-extended) or
unsigned (zero-extended), and `literal` returns the same atom on both kinds of platform; the
two results differ only if some byte of the literal is `128` or more. -/
theorem literal_signedness_independent (L : List (Fin 256)) (hN : 0 < L.length)
    (h8 : L.length ≤ 8) :
    ((∀ c ∈ L, c.val < 128) →
        (∀ c ∈ L, char_to_uint64 true c = char_to_uint64 false c) ∧
        ∃ v, literal true L hN = some v ∧ literal false L hN = some v) ∧
      (literal true L hN ≠ literal false L hN → ∃ c ∈ L, 128 ≤ c.val) := by
  have key : (∀ c ∈ L, c.val < 128) → literal true L hN = literal false L hN := by
    intro h
    rw [literal_of_plain (Or.inr h) hN h8, literal_of_plain (Or.inl rfl) hN h8]
  constructor
  · intro h
    refine ⟨?_, _, literal_of_plain (Or.inr h) hN h8, literal_of_plain (Or.inl rfl) hN h8⟩
    intro c hc
    rw [char_to_uint64_of_plain (Or.inr h : plainChars true L) hc,
      char_to_uint64_of_plain (Or.inl rfl : plainChars false L) hc]
  · intro hne
    by_contra hcon
    apply hne
    apply key
    intro c hc
    by_contra h128
    exact hcon ⟨c, hc, by omega⟩

/-- Witness of `literal_signedness_independent`: the literal `"Atom 1"`. -/
theorem literal_signedness_independent_witness :
    ([0x41, 0x74, 0x6F, 0x6D, 0x20, 0x31, 0] : List (Fin 256)).length ≤ 8 ∧
    (((∀ c ∈ ([0x41, 0x74, 0x6F, 0x6D, 0x20, 0x31, 0] : List (Fin 256)), c.val < 128) →
        (∀ c ∈ ([0x41, 0x74, 0x6F, 0x6D, 0x20, 0x31, 0] : List (Fin 256)),
          char_to_uint64 true c = char_to_uint64 false c) ∧
        ∃ v, literal true [0x41, 0x74, 0x6F, 0x6D, 0x20, 0x31, 0] (by decide) = some v ∧
          literal false [0x41, 0x74, 0x6F, 0x6D, 0x20, 0x31, 0] (by decide) = some v) ∧
      (literal true [0x41, 0x74, 0x6F, 0x6D, 0x20, 0x31, 0] (by decide)
          ≠ literal false [0x41, 0x74, 0x6F, 0x6D, 0x20, 0x31, 0] (by decide) →
        ∃ c ∈ ([0x41, 0x74, 0x6F, 0x6D, 0x20, 0x31, 0] : List (Fin 256)), 128 ≤ c.val)) :=
  ⟨by decide,
    literal_signedness_independent [0x41, 0x74, 0x6F, 0x6D, 0x20, 0x31, 0] (by decide)
      (by decide)⟩

end atom
